import Mathlib

/-!
Verification of `gocovparser` (src/gocovparser/core.go): the Go coverage
parsing-and-aggregation library. We shallowly embed the package:

* Go `int` is modelled as `Int` (no overflow is relevant to the claims);
* Go `float64` ratios are modelled as `ℚ` (each ratio is produced by a single
  exact division `covered / statements`);
* Go maps (`map[string]T`) are modelled as association lists with
  first-insertion order; `m[k] += v` inserts the key with value `v` when
  absent (Go zero-value semantics), and reading an absent key yields `0`;
* the external raw-format parser `cover.ParseProfilesFromReader` (an external
  library, out of this core's scope) is a parameter of `Parse`;
* `parseLineRegex.FindStringSubmatch` is embedded by its leftmost-first
  semantics on the profile file names produced by the line-based external
  parser (such names never contain a newline, so `.*` reads to end of input).
-/

namespace GoCov

/-- Modelled from the spec: `cover.ProfileBlock` from the external
`golang.org/x/tools/cover` library (declared outside this repository): a
contiguous line range with a statement count and a hit count. -/
structure ProfileBlock where
  StartLine : Int
  StartCol : Int
  EndLine : Int
  EndCol : Int
  NumStmt : Int
  Count : Int
deriving DecidableEq, Repr

/-- Modelled from the spec: `cover.Profile` from the external library — a
(file identifier, ordered block list) pair handed to this core. -/
structure Profile where
  FileName : String
  Blocks : List ProfileBlock
deriving DecidableEq, Repr

/-- Modelled from the spec: the `Coverage` struct (declared in the repository
outside src/): the normalized record combining the original file identifier,
its extracted identity parts, and its blocks taken verbatim. -/
structure Coverage where
  FileName : String
  Host : String
  Owner : String
  Repo : String
  Path : String
  Blocks : List ProfileBlock
deriving DecidableEq, Repr

/-- Modelled from the spec: the `ParseGroup` struct (declared in the
repository outside src/): a named grouping specification with a pure key
function from file identifier to group key. -/
structure ParseGroup where
  Name : String
  KeyFunc : String → String

/-- Modelled from the spec: `ErrInvalidCoverageData` (declared in the
repository outside src/), the single error kind; `errors.Wrapf` preserves the
triggering detail as a context message. -/
inductive GoCovError where
  | invalidCoverageData (context : String)
deriving DecidableEq, Repr

/-- Modelled from the spec: the `OverallCoverageBreakdown` struct (declared
in the repository outside src/): six numeric fields. -/
structure OverallCoverageBreakdown where
  TotalLines : Int
  TotalCoveredLines : Int
  PercentByLines : ℚ
  TotalStatements : Int
  TotalCoveredStatements : Int
  PercentByStatements : ℚ
deriving DecidableEq, Repr

/-- `map[string]float64` bucket: group key → ratio. -/
abbrev Bucket := List (String × ℚ)

/-- `ParseGroupResult = map[string]map[string]float64`. -/
abbrev ParseGroupResult := List (String × Bucket)

/-! ### Association lists modelling Go maps -/

/-- Lookup in an association list (Go map read, minus the zero-value default). -/
def alistFind {α : Type} (m : List (String × α)) (k : String) : Option α :=
  match m with
  | [] => none
  | p :: rest => if p.1 = k then some p.2 else alistFind rest k

/-- Go `m[k] = v`: overwrite in place, or append when the key is absent. -/
def alistSet {α : Type} (m : List (String × α)) (k : String) (v : α) :
    List (String × α) :=
  match m with
  | [] => [(k, v)]
  | p :: rest => if p.1 = k then (k, v) :: rest else p :: alistSet rest k v

/-- Go `m[k] += v` on an int-valued map (missing keys read as zero and the
assignment inserts the key). -/
def mapAdd (m : List (String × Int)) (k : String) (v : Int) :
    List (String × Int) :=
  match m with
  | [] => [(k, v)]
  | p :: rest => if p.1 = k then (p.1, p.2 + v) :: rest else p :: mapAdd rest k v

/-- Go map read with zero-value default. -/
def mapGet (m : List (String × Int)) (k : String) : Int :=
  (alistFind m k).getD 0

/-- Key membership in a Go map. -/
def hasKey {α : Type} (m : List (String × α)) (k : String) : Prop :=
  (alistFind m k).isSome

instance {α : Type} (m : List (String × α)) (k : String) :
    Decidable (hasKey m k) := by
  unfold hasKey; infer_instance

/-! ### Identity extraction: `parseLineRegex.FindStringSubmatch`

The regex is `(?P<host>[^/]*)/(?P<owner>[^/]*)/(?:(?P<repo>[^/]*)/)?(?P<path>.*)`.
Under Go's leftmost-first matching this denotes: `host` is everything up to
the first `/`, `owner` everything up to the next `/`, then the optional group
takes `repo` up to a further `/` when one exists (otherwise it is skipped and
`repo` is the empty submatch), and `path` is the remainder.  A match exists
iff the input holds at least two `/`.  We embed this denotation directly. -/

/-- Split a character list at its first `'/'`: the characters before it and
the characters after it, or `none` when no `'/'` occurs. -/
def splitFirst : List Char → Option (List Char × List Char)
  | [] => none
  | c :: cs =>
    if c = '/' then some ([], cs)
    else
      match splitFirst cs with
      | none => none
      | some (a, b) => some (c :: a, b)

/-- The four submatches of `parseLineRegex` on a character list: host, owner,
repo (empty when the optional group is skipped), path. -/
def extractParts (cs : List Char) :
    Option (List Char × List Char × List Char × List Char) :=
  match splitFirst cs with
  | none => none
  | some (host, rest1) =>
    match splitFirst rest1 with
    | none => none
    | some (owner, rest2) =>
      match splitFirst rest2 with
      | none => some (host, owner, [], rest2)
      | some (repo, rest3) => some (host, owner, repo, rest3)

/-- `parseLineRegex.FindStringSubmatch` at the string level, returning the
four captured groups (`none` models the empty `match` slice). -/
def findStringSubmatch (s : String) : Option (String × String × String × String) :=
  (extractParts s.data).map (fun q => (⟨q.1⟩, ⟨q.2.1⟩, ⟨q.2.2.1⟩, ⟨q.2.2.2⟩))

/-! ### `Parse` -/

/-- The profile loop of `Parse`: run the extractor on each profile's file
name, fail-fast with `ErrInvalidCoverageData` on the first file name the
pattern rejects, otherwise build the `Coverage` records in order. -/
def buildCoverage : List Profile → Except GoCovError (List Coverage)
  | [] => .ok []
  | profile :: rest =>
    match findStringSubmatch profile.FileName with
    | none =>
      .error (.invalidCoverageData ("invalid coverage file name " ++ profile.FileName))
    | some (host, owner, repo, path) =>
      match buildCoverage rest with
      | .error e => .error e
      | .ok covs =>
        .ok ({ FileName := profile.FileName, Host := host, Owner := owner,
               Repo := repo, Path := path, Blocks := profile.Blocks } :: covs)

/-- `Parse` from core.go.  The external raw-format parser
`cover.ParseProfilesFromReader` is an external collaborator and is passed in
as `parseProfiles`; its failure message is re-keyed into
`ErrInvalidCoverageData`.  The input is whitespace-trimmed first. -/
def Parse (parseProfiles : String → Except String (List Profile))
    (coverageData : String) : Except GoCovError (List Coverage) :=
  match parseProfiles coverageData.trim with
  | .error msg => .error (.invalidCoverageData msg)
  | .ok profiles => buildCoverage profiles

/-! ### `GroupCoverage` -/

/-- One int-valued accumulator map per component: `statements` and `covered`
for one group name. -/
abbrev StatMaps := List (String × Int) × List (String × Int)

/-- Body of the per-block loop of `GroupCoverage`:
`statements[name][key] += b.NumStmt`, and the same on `covered` when
`b.Count > 0`. -/
def accumBlock (key : String) (sc : StatMaps) (b : ProfileBlock) : StatMaps :=
  (mapAdd sc.1 key b.NumStmt,
   if 0 < b.Count then mapAdd sc.2 key b.NumStmt else sc.2)

/-- Body of the per-record loop of `GroupCoverage`: compute the record's
group key and fold its blocks. -/
def accumCov (keyFunc : String → String) (sc : StatMaps) (cov : Coverage) :
    StatMaps :=
  cov.Blocks.foldl (accumBlock (keyFunc cov.FileName)) sc

/-- The final per-key loop of `GroupCoverage`: for every key of the
`statements` map, store `0.0` when its statement count is `0` and
`covered/statements` otherwise. -/
def finalizeGroup (bucket : Bucket) (stmts covd : List (String × Int)) :
    Bucket :=
  stmts.foldl
    (fun bk p =>
      alistSet bk p.1
        (if p.2 = 0 then 0 else (mapGet covd p.1 : ℚ) / (p.2 : ℚ)))
    bucket

/-- The three nested maps `GroupCoverage` builds, each keyed by group name. -/
structure GCState where
  result : ParseGroupResult
  statements : List (String × List (String × Int))
  covered : List (String × List (String × Int))

/-- Body of the per-group loop of `GroupCoverage`.  The `(getD [])` reads
model Go's lazy `make` initialization guarded by `if !found`: a repeated
group name keeps accumulating into the maps made for its first occurrence. -/
def processGroup (items : List Coverage) (st : GCState) (group : ParseGroup) :
    GCState :=
  let res0 := (alistFind st.result group.Name).getD []
  let stmts0 := (alistFind st.statements group.Name).getD []
  let covd0 := (alistFind st.covered group.Name).getD []
  let sc := items.foldl (accumCov group.KeyFunc) (stmts0, covd0)
  { result := alistSet st.result group.Name (finalizeGroup res0 sc.1 sc.2)
    statements := alistSet st.statements group.Name sc.1
    covered := alistSet st.covered group.Name sc.2 }

/-- `GroupCoverage` from core.go (the Go variadic `groups ...ParseGroup` is a
list; the error component is always `nil`). -/
def GroupCoverage (items : List Coverage) (groups : List ParseGroup) :
    ParseGroupResult × Option GoCovError :=
  ((groups.foldl (processGroup items) ⟨[], [], []⟩).result, none)

/-! ### `GetTotalCoverageBreakdown` -/

/-- Body of the per-block loop of `GetTotalCoverageBreakdown`. -/
def accumBreakdown (acc : OverallCoverageBreakdown) (b : ProfileBlock) :
    OverallCoverageBreakdown :=
  let linesInBlock := b.EndLine - b.StartLine + 1
  let acc1 := { acc with TotalLines := acc.TotalLines + linesInBlock }
  let acc2 :=
    if 0 < b.Count then
      { acc1 with TotalCoveredLines := acc1.TotalCoveredLines + linesInBlock }
    else acc1
  let acc3 := { acc2 with TotalStatements := acc2.TotalStatements + b.NumStmt }
  if 0 < b.Count then
    { acc3 with
      TotalCoveredStatements := acc3.TotalCoveredStatements + b.NumStmt }
  else acc3

/-- `GetTotalCoverageBreakdown` from core.go: one pass over all blocks of
all records, then the two guarded percentage computations (the error
component is always `nil`). -/
def GetTotalCoverageBreakdown (items : List Coverage) :
    OverallCoverageBreakdown × Option GoCovError :=
  let r0 : OverallCoverageBreakdown :=
    { TotalLines := 0, TotalCoveredLines := 0, PercentByLines := 0,
      TotalStatements := 0, TotalCoveredStatements := 0,
      PercentByStatements := 0 }
  let r1 := items.foldl (fun acc cov => cov.Blocks.foldl accumBreakdown acc) r0
  let r2 :=
    if r1.TotalLines ≠ 0 then
      { r1 with
        PercentByLines := (r1.TotalCoveredLines : ℚ) / (r1.TotalLines : ℚ) }
    else r1
  let r3 :=
    if r2.TotalStatements ≠ 0 then
      { r2 with
        PercentByStatements :=
          (r2.TotalCoveredStatements : ℚ) / (r2.TotalStatements : ℚ) }
    else r2
  (r3, none)

/-! ### Specification-side quantities

These definitions follow the words of the specification (sums over blocks
and records); the refinement claims compare the code above against them. -/

/-- Spec: sum of `numStatements` over a block list. -/
def blockStmtSum (bs : List ProfileBlock) : Int :=
  (bs.map (fun b => b.NumStmt)).sum

/-- Spec: sum of `numStatements` over the blocks with `count > 0`. -/
def blockCovStmtSum (bs : List ProfileBlock) : Int :=
  ((bs.filter (fun b => 0 < b.Count)).map (fun b => b.NumStmt)).sum

/-- Spec: sum of line contributions `endLine - startLine + 1` over a block
list. -/
def blockLineSum (bs : List ProfileBlock) : Int :=
  (bs.map (fun b => b.EndLine - b.StartLine + 1)).sum

/-- Spec: sum of line contributions over the blocks with `count > 0`. -/
def blockCovLineSum (bs : List ProfileBlock) : Int :=
  ((bs.filter (fun b => 0 < b.Count)).map
    (fun b => b.EndLine - b.StartLine + 1)).sum

/-- Spec: `statements[key]` — total statements over all blocks of all
records whose file name maps to the key. -/
def specStatements (keyFunc : String → String) :
    List Coverage → String → Int
  | [], _ => 0
  | cov :: items, k =>
    (if keyFunc cov.FileName = k then blockStmtSum cov.Blocks else 0) +
      specStatements keyFunc items k

/-- Spec: `covered[key]` — covered statements over all blocks of all records
whose file name maps to the key. -/
def specCovered (keyFunc : String → String) :
    List Coverage → String → Int
  | [], _ => 0
  | cov :: items, k =>
    (if keyFunc cov.FileName = k then blockCovStmtSum cov.Blocks else 0) +
      specCovered keyFunc items k

/-- A group key is observed through a record that has at least one block. -/
def observedWithBlocks (keyFunc : String → String) (items : List Coverage)
    (k : String) : Prop :=
  ∃ cov ∈ items, keyFunc cov.FileName = k ∧ cov.Blocks ≠ []

instance (keyFunc : String → String) (items : List Coverage) (k : String) :
    Decidable (observedWithBlocks keyFunc items k) := by
  unfold observedWithBlocks; infer_instance

/-! ### `GetTotalCoverageBreakdown` characterization -/

/-- Spec: total lines over all blocks of all records. -/
def specTotalLines (items : List Coverage) : Int :=
  (items.map (fun cov => blockLineSum cov.Blocks)).sum

/-- Spec: covered lines over all blocks of all records. -/
def specTotalCoveredLines (items : List Coverage) : Int :=
  (items.map (fun cov => blockCovLineSum cov.Blocks)).sum

/-- Spec: total statements over all blocks of all records. -/
def specTotalStatements (items : List Coverage) : Int :=
  (items.map (fun cov => blockStmtSum cov.Blocks)).sum

/-- Spec: covered statements over all blocks of all records. -/
def specTotalCoveredStatements (items : List Coverage) : Int :=
  (items.map (fun cov => blockCovStmtSum cov.Blocks)).sum

/-! ### Extraction lemmas -/

/-- Number of `'/'` characters in a file identifier; a string with `n + 1`
slash-separated segments has `n` slashes. -/
def countSlash (s : String) : Nat :=
  s.data.count '/'

/-- Invariant of the `GroupCoverage` state: every accumulator map has
unduplicated keys, every covered count sits between `0` and its statements
count, and every bucket value already in the result lies in `[0, 1]`. -/
def StateInv (st : GCState) : Prop :=
  (∀ n, ((((alistFind st.statements n).getD []).map Prod.fst)).Nodup) ∧
  (∀ n, ((((alistFind st.covered n).getD []).map Prod.fst)).Nodup) ∧
  (∀ n k, 0 ≤ mapGet ((alistFind st.covered n).getD []) k ∧
    mapGet ((alistFind st.covered n).getD []) k ≤
      mapGet ((alistFind st.statements n).getD []) k) ∧
  (∀ n k r, alistFind ((alistFind st.result n).getD []) k = some r →
    0 ≤ r ∧ r ≤ 1)

/-! ### Concrete fixtures used by witnesses and counterexamples -/

/-- Two lines, one statement, covered. -/
def wBlockCov : ProfileBlock :=
  { StartLine := 1, StartCol := 1, EndLine := 2, EndCol := 10, NumStmt := 1,
    Count := 3 }

/-- Two lines, one statement, not covered. -/
def wBlockUncov : ProfileBlock :=
  { StartLine := 3, StartCol := 1, EndLine := 4, EndCol := 10, NumStmt := 1,
    Count := 0 }

/-- One line, zero statements, not covered. -/
def wBlockZero : ProfileBlock :=
  { StartLine := 5, StartCol := 1, EndLine := 5, EndCol := 10, NumStmt := 0,
    Count := 0 }

def wCovA : Coverage :=
  { FileName := "github.com/org/repo/a.go", Host := "github.com",
    Owner := "org", Repo := "repo", Path := "a.go",
    Blocks := [wBlockCov, wBlockUncov] }

def wCovZ : Coverage :=
  { FileName := "github.com/org/repo/z.go", Host := "github.com",
    Owner := "org", Repo := "repo", Path := "z.go", Blocks := [wBlockZero] }

def wCovEmpty : Coverage :=
  { FileName := "github.com/org/repo/e.go", Host := "github.com",
    Owner := "org", Repo := "repo", Path := "e.go", Blocks := [] }

def wGroupAll : ParseGroup := { Name := "all", KeyFunc := fun _ => "k" }

def wDupG1 : ParseGroup := { Name := "g", KeyFunc := fun _ => "a" }

def wDupG2 : ParseGroup := { Name := "g", KeyFunc := fun _ => "b" }

def wGA : ParseGroup := { Name := "ga", KeyFunc := fun _ => "a" }

def wGB : ParseGroup := { Name := "gb", KeyFunc := fun _ => "b" }

def wGoodProfile : Profile := { FileName := "h/o/r/g.go", Blocks := [] }

def wBadProfile : Profile := { FileName := "abc", Blocks := [] }

/-! ### Lemmas and claim theorems -/

theorem alistFind_alistSet {α : Type} (m : List (String × α)) (k k' : String)
    (v : α) :
    alistFind (alistSet m k v) k' = if k' = k then some v else alistFind m k' := by
  induction m with
  | nil =>
    simp only [alistSet, alistFind]
    by_cases h : k' = k
    · rw [if_pos h.symm, if_pos h]
    · rw [if_neg (fun h2 => h h2.symm), if_neg h]
  | cons p rest ih =>
    simp only [alistSet]
    by_cases hp : p.1 = k
    · rw [if_pos hp]
      simp only [alistFind]
      by_cases h : k' = k
      · rw [if_pos h.symm, if_pos h]
      · rw [if_neg (fun h2 => h h2.symm), if_neg h,
          if_neg (fun h2 : p.1 = k' => h (h2.symm.trans hp))]
    · rw [if_neg hp]
      simp only [alistFind]
      by_cases h : p.1 = k'
      · rw [if_pos h, if_neg (fun h2 : k' = k => hp (h.trans h2)), if_pos h]
      · rw [if_neg h, ih]
        by_cases hk : k' = k
        · rw [if_pos hk, if_pos hk]
        · rw [if_neg hk, if_neg hk, if_neg h]

theorem alistFind_mapAdd (m : List (String × Int)) (k k' : String) (v : Int) :
    alistFind (mapAdd m k v) k' =
      if k' = k then some (mapGet m k + v) else alistFind m k' := by
  induction m with
  | nil =>
    simp only [mapAdd, alistFind, mapGet, Option.getD_none]
    by_cases h : k' = k
    · rw [if_pos h.symm, if_pos h, Int.zero_add]
    · rw [if_neg (fun h2 => h h2.symm), if_neg h]
  | cons p rest ih =>
    simp only [mapAdd]
    by_cases hp : p.1 = k
    · rw [if_pos hp]
      have hfind : ∀ k2 : String, alistFind (p :: rest) k2 =
          if p.1 = k2 then some p.2 else alistFind rest k2 := fun _ => rfl
      have hget : mapGet (p :: rest) k = p.2 := by
        simp only [mapGet, hfind, if_pos hp, Option.getD_some]
      simp only [alistFind, hget]
      by_cases h : k' = k
      · rw [if_pos (hp.trans h.symm), if_pos h]
      · rw [if_neg (fun h2 : p.1 = k' => h (h2.symm.trans hp)), if_neg h,
          if_neg (fun h2 : p.1 = k' => h (h2.symm.trans hp))]
    · rw [if_neg hp]
      have hfind : ∀ k2 : String, alistFind (p :: rest) k2 =
          if p.1 = k2 then some p.2 else alistFind rest k2 := fun _ => rfl
      have hget : mapGet (p :: rest) k = mapGet rest k := by
        simp only [mapGet, hfind, if_neg hp]
      simp only [alistFind]
      by_cases h : p.1 = k'
      · rw [if_pos h, if_neg (fun h2 : k' = k => hp (h.trans h2)), if_pos h]
      · rw [if_neg h, ih]
        by_cases hk : k' = k
        · rw [if_pos hk, if_pos hk, hget]
        · rw [if_neg hk, if_neg hk, if_neg h]

theorem mapGet_mapAdd (m : List (String × Int)) (k k' : String) (v : Int) :
    mapGet (mapAdd m k v) k' =
      if k' = k then mapGet m k' + v else mapGet m k' := by
  by_cases h : k' = k <;> simp [mapGet, alistFind_mapAdd, h]

theorem hasKey_mapAdd (m : List (String × Int)) (k k' : String) (v : Int) :
    hasKey (mapAdd m k v) k' ↔ k' = k ∨ hasKey m k' := by
  by_cases h : k' = k <;> simp [hasKey, alistFind_mapAdd, h]

theorem alistFind_eq_of_hasKey {α : Type} (m : List (String × α)) (k : String)
    (h : hasKey m k) : alistFind m k = some ((alistFind m k).get h) := by
  simp

theorem mapGet_of_not_hasKey (m : List (String × Int)) (k : String)
    (h : ¬ hasKey m k) : mapGet m k = 0 := by
  unfold hasKey at h
  unfold mapGet
  cases hf : alistFind m k with
  | none => rfl
  | some v => rw [hf] at h; simp at h

theorem alistFind_eq_some_mapGet (m : List (String × Int)) (k : String)
    (h : hasKey m k) : alistFind m k = some (mapGet m k) := by
  unfold hasKey at h
  unfold mapGet
  cases hf : alistFind m k with
  | none => rw [hf] at h; simp at h
  | some v => rfl

theorem hasKey_iff_mem_keys {α : Type} (m : List (String × α)) (k : String) :
    hasKey m k ↔ k ∈ m.map Prod.fst := by
  induction m with
  | nil => simp [hasKey, alistFind]
  | cons p rest ih =>
    simp only [hasKey, alistFind, List.map_cons, List.mem_cons]
    by_cases h : p.1 = k
    · constructor
      · intro _; left; exact h.symm
      · intro _; rw [if_pos h]; rfl
    · rw [if_neg h]
      constructor
      · intro hk; right; exact ih.1 hk
      · rintro (hk | hk)
        · exact absurd hk.symm h
        · exact ih.2 hk

theorem keys_mapAdd_of_hasKey (m : List (String × Int)) (k : String) (v : Int)
    (h : hasKey m k) : (mapAdd m k v).map Prod.fst = m.map Prod.fst := by
  induction m with
  | nil => simp [hasKey, alistFind] at h
  | cons p rest ih =>
    by_cases hp : p.1 = k
    · simp [mapAdd, hp]
    · simp [hasKey, alistFind, hp] at h
      simp [mapAdd, hp, ih h]

theorem keys_mapAdd_of_not_hasKey (m : List (String × Int)) (k : String)
    (v : Int) (h : ¬ hasKey m k) :
    (mapAdd m k v).map Prod.fst = m.map Prod.fst ++ [k] := by
  induction m with
  | nil => simp [mapAdd]
  | cons p rest ih =>
    by_cases hp : p.1 = k
    · exact absurd (by simp [hasKey, alistFind, hp]) h
    · have h2 : ¬ hasKey rest k := by
        intro hk; exact h (by simpa [hasKey, alistFind, hp] using hk)
      simp [mapAdd, hp, ih h2]

theorem keysNodup_mapAdd (m : List (String × Int)) (k : String) (v : Int)
    (h : (m.map Prod.fst).Nodup) : ((mapAdd m k v).map Prod.fst).Nodup := by
  by_cases hk : hasKey m k
  · rw [keys_mapAdd_of_hasKey m k v hk]; exact h
  · rw [keys_mapAdd_of_not_hasKey m k v hk]
    rw [List.nodup_append]
    refine ⟨h, List.nodup_singleton k, ?_⟩
    intro a ha hb
    simp at hb
    subst hb
    exact hk ((hasKey_iff_mem_keys m a).2 ha)

theorem keys_alistSet_of_not_hasKey {α : Type} (m : List (String × α))
    (k : String) (v : α) (h : ¬ hasKey m k) :
    (alistSet m k v).map Prod.fst = m.map Prod.fst ++ [k] := by
  induction m with
  | nil => simp [alistSet]
  | cons p rest ih =>
    by_cases hp : p.1 = k
    · exact absurd (by simp [hasKey, alistFind, hp]) h
    · have h2 : ¬ hasKey rest k := by
        intro hk; exact h (by simpa [hasKey, alistFind, hp] using hk)
      simp [alistSet, hp, ih h2]

theorem alistFind_eq_none_of_not_mem_keys {α : Type} (m : List (String × α))
    (k : String) (h : ¬ k ∈ m.map Prod.fst) : alistFind m k = none := by
  cases hf : alistFind m k with
  | none => rfl
  | some v =>
    exfalso
    apply h
    rw [← hasKey_iff_mem_keys]
    simp [hasKey, hf]

/-! ### Accumulation lemmas for `GroupCoverage` -/

theorem accumBlocks_stmts_get (key : String) (bs : List ProfileBlock)
    (sc : StatMaps) (k : String) :
    mapGet (bs.foldl (accumBlock key) sc).1 k =
      mapGet sc.1 k + (if k = key then blockStmtSum bs else 0) := by
  induction bs generalizing sc with
  | nil => simp [blockStmtSum]
  | cons b bs ih =>
    rw [List.foldl_cons, ih]
    simp only [accumBlock, mapGet_mapAdd, blockStmtSum, List.map_cons,
      List.sum_cons]
    by_cases h : k = key
    · rw [if_pos h, if_pos h, if_pos h]
      ring
    · rw [if_neg h, if_neg h, if_neg h]

theorem accumBlocks_covd_get (key : String) (bs : List ProfileBlock)
    (sc : StatMaps) (k : String) :
    mapGet (bs.foldl (accumBlock key) sc).2 k =
      mapGet sc.2 k + (if k = key then blockCovStmtSum bs else 0) := by
  induction bs generalizing sc with
  | nil => simp [blockCovStmtSum]
  | cons b bs ih =>
    rw [List.foldl_cons, ih]
    by_cases hc : 0 < b.Count
    · simp only [accumBlock, if_pos hc]
      rw [mapGet_mapAdd]
      have hsum : blockCovStmtSum (b :: bs) = b.NumStmt + blockCovStmtSum bs := by
        simp [blockCovStmtSum, List.filter_cons, hc]
      rw [hsum]
      by_cases h : k = key
      · rw [if_pos h, if_pos h, if_pos h]
        ring
      · rw [if_neg h, if_neg h, if_neg h]
    · simp only [accumBlock, if_neg hc]
      have hsum : blockCovStmtSum (b :: bs) = blockCovStmtSum bs := by
        simp [blockCovStmtSum, List.filter_cons, hc]
      rw [hsum]

theorem accumBlocks_stmts_hasKey (key : String) (bs : List ProfileBlock)
    (sc : StatMaps) (k : String) :
    hasKey (bs.foldl (accumBlock key) sc).1 k ↔
      hasKey sc.1 k ∨ (k = key ∧ bs ≠ []) := by
  induction bs generalizing sc with
  | nil => simp
  | cons b bs ih =>
    rw [List.foldl_cons, ih]
    simp only [accumBlock]
    rw [hasKey_mapAdd]
    constructor
    · rintro ((h | h) | ⟨h, _⟩)
      · exact Or.inr ⟨h, by simp⟩
      · exact Or.inl h
      · exact Or.inr ⟨h, by simp⟩
    · rintro (h | ⟨h, _⟩)
      · exact Or.inl (Or.inr h)
      · exact Or.inl (Or.inl h)

theorem accumBlocks_nodup (key : String) (bs : List ProfileBlock)
    (sc : StatMaps) (h1 : (sc.1.map Prod.fst).Nodup)
    (h2 : (sc.2.map Prod.fst).Nodup) :
    ((bs.foldl (accumBlock key) sc).1.map Prod.fst).Nodup ∧
      ((bs.foldl (accumBlock key) sc).2.map Prod.fst).Nodup := by
  induction bs generalizing sc with
  | nil => exact ⟨h1, h2⟩
  | cons b bs ih =>
    rw [List.foldl_cons]
    apply ih
    · exact keysNodup_mapAdd _ _ _ h1
    · simp only [accumBlock]
      by_cases hc : 0 < b.Count
      · rw [if_pos hc]
        exact keysNodup_mapAdd _ _ _ h2
      · rw [if_neg hc]
        exact h2

theorem accumItems_stmts_get (f : String → String) (items : List Coverage)
    (sc : StatMaps) (k : String) :
    mapGet (items.foldl (accumCov f) sc).1 k =
      mapGet sc.1 k + specStatements f items k := by
  induction items generalizing sc with
  | nil => simp [specStatements]
  | cons cov items ih =>
    rw [List.foldl_cons, ih]
    simp only [accumCov, specStatements]
    rw [accumBlocks_stmts_get]
    by_cases h : f cov.FileName = k
    · rw [if_pos h.symm, if_pos h]
      ring
    · rw [if_neg (fun h2 => h h2.symm), if_neg h]
      ring

theorem accumItems_covd_get (f : String → String) (items : List Coverage)
    (sc : StatMaps) (k : String) :
    mapGet (items.foldl (accumCov f) sc).2 k =
      mapGet sc.2 k + specCovered f items k := by
  induction items generalizing sc with
  | nil => simp [specCovered]
  | cons cov items ih =>
    rw [List.foldl_cons, ih]
    simp only [accumCov, specCovered]
    rw [accumBlocks_covd_get]
    by_cases h : f cov.FileName = k
    · rw [if_pos h.symm, if_pos h]
      ring
    · rw [if_neg (fun h2 => h h2.symm), if_neg h]
      ring

theorem accumItems_stmts_hasKey (f : String → String) (items : List Coverage)
    (sc : StatMaps) (k : String) :
    hasKey (items.foldl (accumCov f) sc).1 k ↔
      hasKey sc.1 k ∨ observedWithBlocks f items k := by
  induction items generalizing sc with
  | nil => simp [observedWithBlocks]
  | cons cov items ih =>
    rw [List.foldl_cons, ih]
    simp only [accumCov]
    rw [accumBlocks_stmts_hasKey]
    simp only [observedWithBlocks, List.mem_cons]
    constructor
    · rintro ((h | ⟨hk, hb⟩) | ⟨c, hc, hk, hb⟩)
      · exact Or.inl h
      · exact Or.inr ⟨cov, Or.inl rfl, hk.symm, hb⟩
      · exact Or.inr ⟨c, Or.inr hc, hk, hb⟩
    · rintro (h | ⟨c, (rfl | hc), hk, hb⟩)
      · exact Or.inl (Or.inl h)
      · exact Or.inl (Or.inr ⟨hk.symm, hb⟩)
      · exact Or.inr ⟨c, hc, hk, hb⟩

theorem accumItems_nodup (f : String → String) (items : List Coverage)
    (sc : StatMaps) (h1 : (sc.1.map Prod.fst).Nodup)
    (h2 : (sc.2.map Prod.fst).Nodup) :
    ((items.foldl (accumCov f) sc).1.map Prod.fst).Nodup ∧
      ((items.foldl (accumCov f) sc).2.map Prod.fst).Nodup := by
  induction items generalizing sc with
  | nil => exact ⟨h1, h2⟩
  | cons cov items ih =>
    rw [List.foldl_cons]
    have := accumBlocks_nodup (f cov.FileName) cov.Blocks sc h1 h2
    exact ih _ this.1 this.2

theorem alistFind_finalizeGroup (b0 : Bucket)
    (stmts covd : List (String × Int)) (k : String)
    (hnd : (stmts.map Prod.fst).Nodup) :
    alistFind (finalizeGroup b0 stmts covd) k =
      match alistFind stmts k with
      | some v => some (if v = 0 then 0 else (mapGet covd k : ℚ) / (v : ℚ))
      | none => alistFind b0 k := by
  induction stmts generalizing b0 with
  | nil => simp [finalizeGroup, alistFind]
  | cons p rest ih =>
    simp only [List.map_cons, List.nodup_cons] at hnd
    simp only [finalizeGroup, List.foldl_cons] at *
    rw [ih _ hnd.2]
    by_cases h : p.1 = k
    · have hrest : alistFind rest k = none := by
        apply alistFind_eq_none_of_not_mem_keys
        rw [← h]
        exact hnd.1
      rw [hrest]
      simp only [alistFind, if_pos h]
      rw [alistFind_alistSet, if_pos h.symm, h]
    · simp only [alistFind, if_neg h]
      cases alistFind rest k with
      | none => rw [alistFind_alistSet, if_neg (fun h2 => h h2.symm)]
      | some v => rfl

/-- `GroupCoverage` on a single specification: one bucket, named after the
specification, finalized from the accumulator maps grown from empty. -/
theorem groupCoverage_singleton (items : List Coverage) (g : ParseGroup) :
    (GroupCoverage items [g]).1 =
      [(g.Name,
        finalizeGroup [] (items.foldl (accumCov g.KeyFunc) ([], [])).1
          (items.foldl (accumCov g.KeyFunc) ([], [])).2)] := by
  simp [GroupCoverage, processGroup, alistFind, alistSet]

/-- The value the single-specification bucket holds at any key: present
exactly for the keys observed through a record with blocks, with the
spec-side ratio as value. -/
theorem groupCoverage_singleton_find (items : List Coverage) (g : ParseGroup)
    (k : String) :
    alistFind ((alistFind (GroupCoverage items [g]).1 g.Name).getD []) k =
      if observedWithBlocks g.KeyFunc items k then
        some (if specStatements g.KeyFunc items k = 0 then 0
          else (specCovered g.KeyFunc items k : ℚ) /
            (specStatements g.KeyFunc items k : ℚ))
      else none := by
  rw [groupCoverage_singleton]
  set sc := items.foldl (accumCov g.KeyFunc) (([], []) : StatMaps) with hsc
  have h0 : alistFind [(g.Name, finalizeGroup [] sc.1 sc.2)] g.Name
      = some (finalizeGroup [] sc.1 sc.2) := by
    simp [alistFind]
  rw [h0, Option.getD_some]
  have hnd := accumItems_nodup g.KeyFunc items ([], []) (by simp) (by simp)
  rw [← hsc] at hnd
  rw [alistFind_finalizeGroup _ _ _ _ hnd.1]
  have hget1 : mapGet sc.1 k = specStatements g.KeyFunc items k := by
    rw [hsc, accumItems_stmts_get]
    simp [mapGet, alistFind]
  have hget2 : mapGet sc.2 k = specCovered g.KeyFunc items k := by
    rw [hsc, accumItems_covd_get]
    simp [mapGet, alistFind]
  by_cases hobs : observedWithBlocks g.KeyFunc items k
  · have hk : hasKey sc.1 k := by
      rw [hsc, accumItems_stmts_hasKey]
      exact Or.inr hobs
    rw [alistFind_eq_some_mapGet _ _ hk, if_pos hobs]
    simp only [hget1, hget2]
  · have hk : ¬ hasKey sc.1 k := by
      rw [hsc, accumItems_stmts_hasKey]
      rintro (h | h)
      · simp [hasKey, alistFind] at h
      · exact hobs h
    have hnone : alistFind sc.1 k = none := by
      cases hf : alistFind sc.1 k with
      | none => rfl
      | some v => exact absurd (by simp [hasKey, hf]) hk
    rw [hnone, if_neg hobs]
    simp [alistFind]

theorem accumBreakdown_fold (bs : List ProfileBlock)
    (acc : OverallCoverageBreakdown) :
    bs.foldl accumBreakdown acc =
      { TotalLines := acc.TotalLines + blockLineSum bs
        TotalCoveredLines := acc.TotalCoveredLines + blockCovLineSum bs
        PercentByLines := acc.PercentByLines
        TotalStatements := acc.TotalStatements + blockStmtSum bs
        TotalCoveredStatements :=
          acc.TotalCoveredStatements + blockCovStmtSum bs
        PercentByStatements := acc.PercentByStatements } := by
  induction bs generalizing acc with
  | nil => simp [blockLineSum, blockCovLineSum, blockStmtSum, blockCovStmtSum]
  | cons b bs ih =>
    rw [List.foldl_cons, ih]
    by_cases hc : 0 < b.Count <;>
      simp [accumBreakdown, hc, blockLineSum, blockCovLineSum, blockStmtSum,
        blockCovStmtSum, List.filter_cons] <;>
      ring_nf <;> simp [add_comm, add_assoc, add_left_comm]

theorem breakdown_items_fold (items : List Coverage)
    (acc : OverallCoverageBreakdown) :
    items.foldl (fun acc cov => cov.Blocks.foldl accumBreakdown acc) acc =
      { TotalLines := acc.TotalLines + specTotalLines items
        TotalCoveredLines := acc.TotalCoveredLines + specTotalCoveredLines items
        PercentByLines := acc.PercentByLines
        TotalStatements := acc.TotalStatements + specTotalStatements items
        TotalCoveredStatements :=
          acc.TotalCoveredStatements + specTotalCoveredStatements items
        PercentByStatements := acc.PercentByStatements } := by
  induction items generalizing acc with
  | nil =>
    simp [specTotalLines, specTotalCoveredLines, specTotalStatements,
      specTotalCoveredStatements]
  | cons cov items ih =>
    rw [List.foldl_cons, accumBreakdown_fold, ih]
    simp [specTotalLines, specTotalCoveredLines, specTotalStatements,
      specTotalCoveredStatements, add_assoc]

/-- The overall breakdown equals the spec-side totals and guarded ratios. -/
theorem getTotalCoverageBreakdown_eq (items : List Coverage) :
    (GetTotalCoverageBreakdown items).1 =
      { TotalLines := specTotalLines items
        TotalCoveredLines := specTotalCoveredLines items
        PercentByLines :=
          if specTotalLines items = 0 then 0
          else (specTotalCoveredLines items : ℚ) / (specTotalLines items : ℚ)
        TotalStatements := specTotalStatements items
        TotalCoveredStatements := specTotalCoveredStatements items
        PercentByStatements :=
          if specTotalStatements items = 0 then 0
          else (specTotalCoveredStatements items : ℚ) /
            (specTotalStatements items : ℚ) } := by
  unfold GetTotalCoverageBreakdown
  simp only [breakdown_items_fold]
  by_cases h1 : specTotalLines items = 0 <;>
    by_cases h2 : specTotalStatements items = 0 <;>
      simp [h1, h2]

/-! ### Per-name independence of the group fold -/

theorem processGroup_find_untouched (items : List Coverage) (st : GCState)
    (group : ParseGroup) (n : String) (h : group.Name ≠ n) :
    alistFind (processGroup items st group).result n = alistFind st.result n ∧
    alistFind (processGroup items st group).statements n =
      alistFind st.statements n ∧
    alistFind (processGroup items st group).covered n =
      alistFind st.covered n := by
  refine ⟨?_, ?_, ?_⟩ <;>
    · simp only [processGroup]
      rw [alistFind_alistSet, if_neg (fun h2 => h h2.symm)]

theorem foldGroups_find_untouched (items : List Coverage)
    (groups : List ParseGroup) (st : GCState) (n : String)
    (h : ∀ g ∈ groups, g.Name ≠ n) :
    alistFind (groups.foldl (processGroup items) st).result n =
      alistFind st.result n ∧
    alistFind (groups.foldl (processGroup items) st).statements n =
      alistFind st.statements n ∧
    alistFind (groups.foldl (processGroup items) st).covered n =
      alistFind st.covered n := by
  induction groups generalizing st with
  | nil => exact ⟨rfl, rfl, rfl⟩
  | cons g gs ih =>
    rw [List.foldl_cons]
    have hg := processGroup_find_untouched items st g n (h g (by simp))
    have hrest := ih (processGroup items st g)
      (fun g' hg' => h g' (List.mem_cons_of_mem _ hg'))
    exact ⟨hrest.1.trans hg.1, hrest.2.1.trans hg.2.1, hrest.2.2.trans hg.2.2⟩

/-- Folding a list of groups whose names are distinct and fresh for the
state produces, at each group's name, exactly the bucket that group would
produce on its own. -/
theorem foldGroups_find_fresh (items : List Coverage)
    (groups : List ParseGroup) (st : GCState) (g : ParseGroup)
    (hmem : g ∈ groups) (hnd : (groups.map ParseGroup.Name).Nodup)
    (hempty : ∀ g' ∈ groups,
      alistFind st.result g'.Name = none ∧
      alistFind st.statements g'.Name = none ∧
      alistFind st.covered g'.Name = none) :
    alistFind (groups.foldl (processGroup items) st).result g.Name =
      some (finalizeGroup [] (items.foldl (accumCov g.KeyFunc) ([], [])).1
        (items.foldl (accumCov g.KeyFunc) ([], [])).2) := by
  induction groups generalizing st with
  | nil => simp at hmem
  | cons h0 gs ih =>
    rw [List.foldl_cons]
    simp only [List.map_cons, List.nodup_cons] at hnd
    rcases List.mem_cons.mp hmem with rfl | hmem2
    · have he := hempty g (by simp)
      have hres : alistFind (processGroup items st g).result g.Name =
          some (finalizeGroup []
            (items.foldl (accumCov g.KeyFunc) ([], [])).1
            (items.foldl (accumCov g.KeyFunc) ([], [])).2) := by
        simp only [processGroup, he.1, he.2.1, he.2.2, Option.getD_none]
        rw [alistFind_alistSet, if_pos rfl]
      have huntouched := foldGroups_find_untouched items gs
        (processGroup items st g) g.Name
        (fun g' hg' hne => hnd.1 (hne ▸ List.mem_map_of_mem ParseGroup.Name hg'))
      rw [huntouched.1, hres]
    · have hne : h0.Name ≠ g.Name := by
        intro he
        exact hnd.1 (he ▸ List.mem_map_of_mem ParseGroup.Name hmem2)
      apply ih (processGroup items st h0) hmem2 hnd.2
      intro g' hg'
      by_cases hg'n : h0.Name = g'.Name
      · exfalso
        exact hnd.1 (hg'n ▸ List.mem_map_of_mem ParseGroup.Name hg')
      · have hu := processGroup_find_untouched items st h0 g'.Name hg'n
        have he := hempty g' (List.mem_cons_of_mem _ hg')
        exact ⟨hu.1.trans he.1, hu.2.1.trans he.2.1, hu.2.2.trans he.2.2⟩

theorem foldGroups_result_keys (items : List Coverage)
    (groups : List ParseGroup) (st : GCState)
    (hdisj : ∀ g ∈ groups, ¬ hasKey st.result g.Name)
    (hnd : (groups.map ParseGroup.Name).Nodup) :
    (groups.foldl (processGroup items) st).result.map Prod.fst =
      st.result.map Prod.fst ++ groups.map ParseGroup.Name := by
  induction groups generalizing st with
  | nil => simp
  | cons g gs ih =>
    rw [List.foldl_cons]
    simp only [List.map_cons, List.nodup_cons] at hnd
    have hkeys : (processGroup items st g).result.map Prod.fst =
        st.result.map Prod.fst ++ [g.Name] := by
      simp only [processGroup]
      exact keys_alistSet_of_not_hasKey _ _ _ (hdisj g (by simp))
    have hdisj2 : ∀ g' ∈ gs, ¬ hasKey (processGroup items st g).result g'.Name := by
      intro g' hg' hk
      have hne : g'.Name ≠ g.Name := by
        intro he
        exact hnd.1 (he ▸ List.mem_map_of_mem ParseGroup.Name hg')
      rw [hasKey, (processGroup_find_untouched items st g g'.Name
        (fun h2 => hne h2.symm)).1] at hk
      exact hdisj g' (List.mem_cons_of_mem _ hg') hk
    rw [ih _ hdisj2 hnd.2, hkeys]
    simp

theorem splitFirst_eq_none_of_no_slash (cs : List Char) (h : '/' ∉ cs) :
    splitFirst cs = none := by
  induction cs with
  | nil => rfl
  | cons c cs ih =>
    simp only [List.mem_cons, not_or] at h
    simp only [splitFirst, if_neg (fun hc : c = '/' => h.1 hc.symm)]
    rw [ih h.2]

theorem splitFirst_isSome_of_slash (cs : List Char) (h : '/' ∈ cs) :
    (splitFirst cs).isSome := by
  induction cs with
  | nil => simp at h
  | cons c cs ih =>
    by_cases hc : c = '/'
    · simp [splitFirst, hc]
    · rcases List.mem_cons.mp h with he | hm
      · exact absurd he.symm hc
      · simp only [splitFirst, if_neg hc]
        cases hsf : splitFirst cs with
        | none =>
          rw [hsf] at ih
          exact absurd (ih hm) (by simp)
        | some ab => simp

theorem splitFirst_decomp (cs a b : List Char)
    (h : splitFirst cs = some (a, b)) : cs = a ++ '/' :: b ∧ '/' ∉ a := by
  induction cs generalizing a with
  | nil => simp [splitFirst] at h
  | cons c cs ih =>
    by_cases hc : c = '/'
    · simp only [splitFirst, if_pos hc, Option.some_inj, Prod.mk.injEq] at h
      obtain ⟨ha, hb⟩ := h
      subst ha
      subst hb
      subst hc
      simp
    · simp only [splitFirst, if_neg hc] at h
      cases hsf : splitFirst cs with
      | none => rw [hsf] at h; simp at h
      | some ab =>
        obtain ⟨a0, b0⟩ := ab
        rw [hsf, Option.some_inj] at h
        obtain ⟨ha, hb⟩ := Prod.mk.inj h.symm
        have hd := ih a0 (by rw [hsf, hb])
        constructor
        · rw [ha, hd.1, hb, List.cons_append]
        · rw [ha]
          simp only [List.mem_cons, not_or]
          exact ⟨fun h2 => hc h2.symm, hd.2⟩

theorem splitFirst_count (cs a b : List Char)
    (h : splitFirst cs = some (a, b)) :
    cs.count '/' = b.count '/' + 1 := by
  obtain ⟨hd, hm⟩ := splitFirst_decomp cs a b h
  rw [hd, List.count_append, List.count_cons_self,
    List.count_eq_zero.mpr hm]
  omega

theorem findStringSubmatch_no_slash (name : String)
    (h : '/' ∉ name.data) : findStringSubmatch name = none := by
  unfold findStringSubmatch extractParts
  rw [splitFirst_eq_none_of_no_slash name.data h]
  rfl

theorem buildCoverage_fail_fast (pre : List Profile) (p : Profile)
    (suf : List Profile)
    (hpre : ∀ q ∈ pre, (findStringSubmatch q.FileName).isSome)
    (hp : findStringSubmatch p.FileName = none) :
    buildCoverage (pre ++ p :: suf) =
      .error (.invalidCoverageData
        ("invalid coverage file name " ++ p.FileName)) := by
  induction pre with
  | nil => simp [buildCoverage, hp]
  | cons q pre ih =>
    have hq := hpre q (by simp)
    obtain ⟨m, hm⟩ := Option.isSome_iff_exists.mp hq
    obtain ⟨h1, h2, h3, h4⟩ := m
    rw [List.cons_append]
    simp only [buildCoverage]
    rw [hm, ih (fun q2 hq2 => hpre q2 (List.mem_cons_of_mem _ hq2))]

/-! ### Nonnegativity and comparison lemmas -/

theorem blockSums_nonneg_le (bs : List ProfileBlock)
    (h : ∀ b ∈ bs, 0 ≤ b.NumStmt) :
    0 ≤ blockCovStmtSum bs ∧ blockCovStmtSum bs ≤ blockStmtSum bs := by
  induction bs with
  | nil => simp [blockCovStmtSum, blockStmtSum]
  | cons b bs ih =>
    have hb := h b (by simp)
    have hr := ih (fun b2 hb2 => h b2 (List.mem_cons_of_mem _ hb2))
    have hstmt : blockStmtSum (b :: bs) = b.NumStmt + blockStmtSum bs := by
      simp [blockStmtSum]
    by_cases hc : 0 < b.Count
    · have hcov : blockCovStmtSum (b :: bs) =
          b.NumStmt + blockCovStmtSum bs := by
        simp [blockCovStmtSum, List.filter_cons, hc]
      rw [hcov, hstmt]
      omega
    · have hcov : blockCovStmtSum (b :: bs) = blockCovStmtSum bs := by
        simp [blockCovStmtSum, List.filter_cons, hc]
      rw [hcov, hstmt]
      omega

theorem lineSums_nonneg_le (bs : List ProfileBlock)
    (h : ∀ b ∈ bs, b.StartLine ≤ b.EndLine) :
    0 ≤ blockCovLineSum bs ∧ blockCovLineSum bs ≤ blockLineSum bs := by
  induction bs with
  | nil => simp [blockCovLineSum, blockLineSum]
  | cons b bs ih =>
    have hb := h b (by simp)
    have hr := ih (fun b2 hb2 => h b2 (List.mem_cons_of_mem _ hb2))
    have hline : blockLineSum (b :: bs) =
        (b.EndLine - b.StartLine + 1) + blockLineSum bs := by
      simp [blockLineSum]
    by_cases hc : 0 < b.Count
    · have hcov : blockCovLineSum (b :: bs) =
          (b.EndLine - b.StartLine + 1) + blockCovLineSum bs := by
        simp [blockCovLineSum, List.filter_cons, hc]
      rw [hcov, hline]
      omega
    · have hcov : blockCovLineSum (b :: bs) = blockCovLineSum bs := by
        simp [blockCovLineSum, List.filter_cons, hc]
      rw [hcov, hline]
      omega

theorem specSums_nonneg_le (f : String → String) (items : List Coverage)
    (k : String) (h : ∀ cov ∈ items, ∀ b ∈ cov.Blocks, 0 ≤ b.NumStmt) :
    0 ≤ specCovered f items k ∧
      specCovered f items k ≤ specStatements f items k := by
  induction items with
  | nil => simp [specCovered, specStatements]
  | cons cov items ih =>
    have hb := blockSums_nonneg_le cov.Blocks (h cov (by simp))
    have hr := ih (fun c2 hc2 => h c2 (List.mem_cons_of_mem _ hc2))
    simp only [specCovered, specStatements]
    by_cases hk : f cov.FileName = k
    · rw [if_pos hk, if_pos hk]
      have hs : 0 ≤ blockStmtSum cov.Blocks := le_trans hb.1 hb.2
      omega
    · rw [if_neg hk, if_neg hk]
      omega

theorem specTotals_nonneg_le (items : List Coverage)
    (h : ∀ cov ∈ items, ∀ b ∈ cov.Blocks,
      0 ≤ b.NumStmt ∧ 0 ≤ b.Count ∧ b.StartLine ≤ b.EndLine) :
    (0 ≤ specTotalCoveredLines items ∧
      specTotalCoveredLines items ≤ specTotalLines items) ∧
    (0 ≤ specTotalCoveredStatements items ∧
      specTotalCoveredStatements items ≤ specTotalStatements items) := by
  induction items with
  | nil =>
    simp [specTotalLines, specTotalCoveredLines, specTotalStatements,
      specTotalCoveredStatements]
  | cons cov items ih =>
    have hstmt := blockSums_nonneg_le cov.Blocks
      (fun b hb => (h cov (by simp) b hb).1)
    have hline := lineSums_nonneg_le cov.Blocks
      (fun b hb => (h cov (by simp) b hb).2.2)
    have hr := ih (fun c2 hc2 => h c2 (List.mem_cons_of_mem _ hc2))
    simp only [specTotalLines, specTotalCoveredLines, specTotalStatements,
      specTotalCoveredStatements, List.map_cons, List.sum_cons] at *
    omega

/-- A guarded ratio `covered/statements` with `0 ≤ covered ≤ statements`
lies in the unit interval. -/
theorem guarded_ratio_unit (c v : Int) (h0 : 0 ≤ c) (h1 : c ≤ v) :
    0 ≤ (if v = 0 then (0 : ℚ) else (c : ℚ) / (v : ℚ)) ∧
      (if v = 0 then (0 : ℚ) else (c : ℚ) / (v : ℚ)) ≤ 1 := by
  by_cases h : v = 0
  · simp [h]
  · have hv : 0 < v := lt_of_le_of_ne (le_trans h0 h1) (Ne.symm h)
    have hvq : (0 : ℚ) < (v : ℚ) := by exact_mod_cast hv
    rw [if_neg h]
    constructor
    · apply div_nonneg _ hvq.le
      exact_mod_cast h0
    · rw [div_le_one hvq]
      exact_mod_cast h1

theorem processGroup_inv (items : List Coverage) (st : GCState)
    (group : ParseGroup)
    (hnn : ∀ cov ∈ items, ∀ b ∈ cov.Blocks, 0 ≤ b.NumStmt)
    (hinv : StateInv st) : StateInv (processGroup items st group) := by
  obtain ⟨hnd1, hnd2, hle, hbk⟩ := hinv
  set stmts0 := (alistFind st.statements group.Name).getD [] with hs0
  set covd0 := (alistFind st.covered group.Name).getD [] with hc0
  set res0 := (alistFind st.result group.Name).getD [] with hr0
  set sc := items.foldl (accumCov group.KeyFunc) (stmts0, covd0) with hsc
  have hscnd := accumItems_nodup group.KeyFunc items (stmts0, covd0)
    (hnd1 group.Name) (hnd2 group.Name)
  rw [← hsc] at hscnd
  have hget1 : ∀ k, mapGet sc.1 k =
      mapGet stmts0 k + specStatements group.KeyFunc items k := by
    intro k
    rw [hsc, accumItems_stmts_get]
  have hget2 : ∀ k, mapGet sc.2 k =
      mapGet covd0 k + specCovered group.KeyFunc items k := by
    intro k
    rw [hsc, accumItems_covd_get]
  have hscle : ∀ k, 0 ≤ mapGet sc.2 k ∧ mapGet sc.2 k ≤ mapGet sc.1 k := by
    intro k
    have hs := specSums_nonneg_le group.KeyFunc items k hnn
    have hl := hle group.Name k
    rw [hget1 k, hget2 k]
    constructor <;> linarith [hl.1, hl.2, hs.1, hs.2]
  have hproc : processGroup items st group =
      { result := alistSet st.result group.Name (finalizeGroup res0 sc.1 sc.2)
        statements := alistSet st.statements group.Name sc.1
        covered := alistSet st.covered group.Name sc.2 } := rfl
  rw [hproc]
  refine ⟨?_, ?_, ?_, ?_⟩
  · intro n
    dsimp only
    rw [alistFind_alistSet]
    by_cases hn : n = group.Name
    · rw [if_pos hn, Option.getD_some]
      exact hscnd.1
    · rw [if_neg hn]
      exact hnd1 n
  · intro n
    dsimp only
    rw [alistFind_alistSet]
    by_cases hn : n = group.Name
    · rw [if_pos hn, Option.getD_some]
      exact hscnd.2
    · rw [if_neg hn]
      exact hnd2 n
  · intro n k
    dsimp only
    rw [alistFind_alistSet, alistFind_alistSet]
    by_cases hn : n = group.Name
    · rw [if_pos hn, if_pos hn, Option.getD_some, Option.getD_some]
      exact hscle k
    · rw [if_neg hn, if_neg hn]
      exact hle n k
  · intro n k r hfind
    dsimp only at hfind
    rw [alistFind_alistSet] at hfind
    by_cases hn : n = group.Name
    · rw [if_pos hn, Option.getD_some] at hfind
      rw [alistFind_finalizeGroup _ _ _ _ hscnd.1] at hfind
      cases hv : alistFind sc.1 k with
      | some v =>
        rw [hv] at hfind
        simp only [Option.some_inj] at hfind
        have hveq : v = mapGet sc.1 k := by
          rw [mapGet, hv, Option.getD_some]
        subst hfind
        exact guarded_ratio_unit (mapGet sc.2 k) v (hscle k).1
          (hveq ▸ (hscle k).2)
      | none =>
        rw [hv] at hfind
        exact hbk group.Name k r hfind
    · rw [if_neg hn] at hfind
      exact hbk n k r hfind

theorem foldGroups_inv (items : List Coverage) (groups : List ParseGroup)
    (st : GCState)
    (hnn : ∀ cov ∈ items, ∀ b ∈ cov.Blocks, 0 ≤ b.NumStmt)
    (hinv : StateInv st) :
    StateInv (groups.foldl (processGroup items) st) := by
  induction groups generalizing st with
  | nil => exact hinv
  | cons g gs ih =>
    rw [List.foldl_cons]
    exact ih _ (processGroup_inv items st g hnn hinv)

theorem initState_inv : StateInv ⟨[], [], []⟩ := by
  refine ⟨?_, ?_, ?_, ?_⟩
  · intro n
    simp [alistFind]
  · intro n
    simp [alistFind]
  · intro n k
    simp [alistFind, mapGet]
  · intro n k r hfind
    simp [alistFind] at hfind

/-! ### Claims -/

/-- C1: for every sequence of Coverage records and every ParseGroup, every
value the specification's bucket holds at a key `k` equals
`covered[k]/statements[k]`, where `statements[k]` sums `numStatements` over
all blocks of all records whose file name maps to `k`, `covered[k]` sums the
same restricted to blocks with `count > 0` (summed across all such records
before dividing), and the ratio is `0.0` when `statements[k]` is `0`. -/
theorem groupCoverage_bucket_ratio (items : List Coverage) (g : ParseGroup)
    (k : String) (r : ℚ)
    (h : alistFind ((alistFind (GroupCoverage items [g]).1 g.Name).getD []) k =
      some r) :
    r = if specStatements g.KeyFunc items k = 0 then 0
        else (specCovered g.KeyFunc items k : ℚ) /
          (specStatements g.KeyFunc items k : ℚ) := by
  rw [groupCoverage_singleton_find] at h
  by_cases hobs : observedWithBlocks g.KeyFunc items k
  · rw [if_pos hobs, Option.some_inj] at h
    exact h.symm
  · rw [if_neg hobs] at h
    exact absurd h (by simp)

theorem groupCoverage_bucket_ratio_witness :
    (1 : ℚ) / 2 =
      if specStatements wGroupAll.KeyFunc [wCovA] "k" = 0 then 0
      else (specCovered wGroupAll.KeyFunc [wCovA] "k" : ℚ) /
        (specStatements wGroupAll.KeyFunc [wCovA] "k" : ℚ) :=
  groupCoverage_bucket_ratio [wCovA] wGroupAll "k" (1 / 2) rfl

/-- C2: the breakdown's six fields are the spec-side sums over all blocks of
all records — total/covered lines by `endLine - startLine + 1`,
total/covered statements by `numStatements`, restricted to `count > 0` for
the covered variants — with the two percentages `covered/total` guarded to
`0.0` when the total is `0`. -/
theorem getTotalCoverageBreakdown_spec (items : List Coverage) :
    (GetTotalCoverageBreakdown items).1.TotalLines = specTotalLines items ∧
    (GetTotalCoverageBreakdown items).1.TotalCoveredLines =
      specTotalCoveredLines items ∧
    (GetTotalCoverageBreakdown items).1.TotalStatements =
      specTotalStatements items ∧
    (GetTotalCoverageBreakdown items).1.TotalCoveredStatements =
      specTotalCoveredStatements items ∧
    (GetTotalCoverageBreakdown items).1.PercentByLines =
      (if specTotalLines items = 0 then 0
       else (specTotalCoveredLines items : ℚ) / (specTotalLines items : ℚ)) ∧
    (GetTotalCoverageBreakdown items).1.PercentByStatements =
      (if specTotalStatements items = 0 then 0
       else (specTotalCoveredStatements items : ℚ) /
         (specTotalStatements items : ℚ)) := by
  rw [getTotalCoverageBreakdown_eq]
  exact ⟨rfl, rfl, rfl, rfl, rfl, rfl⟩

/-- C5 counterexample: a key observed only through a record with no blocks
is *not* in the bucket, though the key function did produce it on that
record's file name — the claim's "every key observed" fails as stated. -/
theorem groupCoverage_observed_key_cex :
    wGroupAll.KeyFunc wCovEmpty.FileName = "k" ∧
    (GroupCoverage [wCovEmpty] [wGroupAll]).1 = [("all", [])] ∧
    alistFind
      ((alistFind (GroupCoverage [wCovEmpty] [wGroupAll]).1 "all").getD [])
      "k" = none := by
  decide

/-- C5 amended: the single-specification bucket contains every key observed
through a record having at least one block, and such a key whose total
statement count is `0` appears with ratio `0.0` rather than being omitted. -/
theorem groupCoverage_observed_keys (items : List Coverage) (g : ParseGroup)
    (k : String) (h : observedWithBlocks g.KeyFunc items k) :
    ∃ r, alistFind
        ((alistFind (GroupCoverage items [g]).1 g.Name).getD []) k = some r ∧
      (specStatements g.KeyFunc items k = 0 → r = 0) := by
  rw [groupCoverage_singleton_find, if_pos h]
  refine ⟨_, rfl, fun h0 => ?_⟩
  rw [if_pos h0]

theorem groupCoverage_observed_keys_witness :
    ∃ r, alistFind
        ((alistFind (GroupCoverage [wCovZ] [wGroupAll]).1
          wGroupAll.Name).getD []) "k" = some r ∧
      (specStatements wGroupAll.KeyFunc [wCovZ] "k" = 0 → r = 0) :=
  groupCoverage_observed_keys [wCovZ] wGroupAll "k" (by decide)

/-- C6 counterexample: two specifications sharing one name produce a single
result bucket (not one per specification — the one-to-one correspondence
fails), and that bucket's contents (both group keys `"a"` and `"b"`) are
affected by the accumulation done for the other specification: alone, each
specification's bucket holds exactly one key. -/
theorem groupCoverage_same_name_cex :
    (GroupCoverage [wCovA] [wDupG1, wDupG2]).1 =
      [("g", [("a", 1 / 2), ("b", 1 / 2)])] ∧
    (GroupCoverage [wCovA] [wDupG1]).1 = [("g", [("a", 1 / 2)])] ∧
    (GroupCoverage [wCovA] [wDupG2]).1 = [("g", [("b", 1 / 2)])] ∧
    ((GroupCoverage [wCovA] [wDupG1, wDupG2]).1.map Prod.fst).length = 1 :=
  ⟨rfl, rfl, rfl, rfl⟩

/-- C6 amended: when the specification names are pairwise distinct, the
result's names are exactly the input specifications' names in order, and
each specification's bucket equals the bucket it produces on its own. -/
theorem groupCoverage_distinct_names_spec (items : List Coverage)
    (groups : List ParseGroup)
    (hnd : (groups.map ParseGroup.Name).Nodup) :
    (GroupCoverage items groups).1.map Prod.fst =
      groups.map ParseGroup.Name ∧
    ∀ g ∈ groups, alistFind (GroupCoverage items groups).1 g.Name =
      alistFind (GroupCoverage items [g]).1 g.Name := by
  constructor
  · show (groups.foldl (processGroup items) ⟨[], [], []⟩).result.map Prod.fst
      = groups.map ParseGroup.Name
    rw [foldGroups_result_keys items groups ⟨[], [], []⟩
      (fun g _ => by simp [hasKey, alistFind]) hnd]
    simp
  · intro g hg
    have h1 := foldGroups_find_fresh items groups ⟨[], [], []⟩ g hg hnd
      (fun g' _ => ⟨rfl, rfl, rfl⟩)
    have h2 : alistFind (GroupCoverage items [g]).1 g.Name =
        some (finalizeGroup []
          (items.foldl (accumCov g.KeyFunc) ([], [])).1
          (items.foldl (accumCov g.KeyFunc) ([], [])).2) := by
      rw [groupCoverage_singleton]
      simp [alistFind]
    rw [h2]
    exact h1

theorem groupCoverage_distinct_names_witness :
    (GroupCoverage [wCovA] [wGA, wGB]).1.map Prod.fst =
      [wGA, wGB].map ParseGroup.Name ∧
    ∀ g ∈ [wGA, wGB], alistFind (GroupCoverage [wCovA] [wGA, wGB]).1 g.Name =
      alistFind (GroupCoverage [wCovA] [g]).1 g.Name :=
  groupCoverage_distinct_names_spec [wCovA] [wGA, wGB] (by decide)

/-- C9: the error component of both aggregation functions is `nil` for every
input, and a well-defined value is always returned. -/
theorem aggregation_never_errors (items : List Coverage)
    (groups : List ParseGroup) :
    (GroupCoverage items groups).2 = none ∧
      (GetTotalCoverageBreakdown items).2 = none :=
  ⟨rfl, rfl⟩

/-- C10: a group key observed only through records with no blocks is
entirely absent from the single-specification bucket (keys enter the
accumulator maps only inside the per-block loop). -/
theorem groupCoverage_blockless_records_absent (items : List Coverage)
    (g : ParseGroup) (k : String)
    (h : ∀ cov ∈ items, g.KeyFunc cov.FileName = k → cov.Blocks = []) :
    alistFind ((alistFind (GroupCoverage items [g]).1 g.Name).getD []) k =
      none := by
  rw [groupCoverage_singleton_find, if_neg]
  rintro ⟨cov, hc, hk, hb⟩
  exact hb (h cov hc hk)

theorem groupCoverage_blockless_records_absent_witness :
    alistFind
      ((alistFind (GroupCoverage [wCovEmpty] [wGroupAll]).1
        wGroupAll.Name).getD []) "k" = none :=
  groupCoverage_blockless_records_absent [wCovEmpty] wGroupAll "k"
    (by decide)

/-- C7: whenever the external parser yields zero profiles for the trimmed
input — in particular for an empty or whitespace-only report — `Parse`
returns the empty record sequence and no error. -/
theorem parse_empty_report (parseProfiles : String → Except String (List Profile))
    (s : String) (h : parseProfiles s.trim = .ok []) :
    Parse parseProfiles s = .ok [] := by
  unfold Parse
  rw [h]
  rfl

theorem parse_empty_report_witness :
    Parse (fun _ => Except.ok []) "  \n  " = .ok [] :=
  parse_empty_report (fun _ => Except.ok []) "  \n  " rfl

/-- C4: the pattern rejects every identifier with no `/` (it in fact needs
two), and on the first profile whose file name the pattern rejects, `Parse`
aborts with `InvalidCoverageData` carrying the offending identifier,
returning the error alone and no partial records. -/
theorem parse_fail_fast_invalid_name :
    (∀ name : String, '/' ∉ name.data → findStringSubmatch name = none) ∧
    (∀ (parseProfiles : String → Except String (List Profile)) (s : String)
      (pre : List Profile) (p : Profile) (suf : List Profile),
      parseProfiles s.trim = .ok (pre ++ p :: suf) →
      (∀ q ∈ pre, (findStringSubmatch q.FileName).isSome) →
      findStringSubmatch p.FileName = none →
      Parse parseProfiles s =
        .error (.invalidCoverageData
          ("invalid coverage file name " ++ p.FileName))) := by
  constructor
  · intro name h
    exact findStringSubmatch_no_slash name h
  · intro parseProfiles s pre p suf hext hpre hp
    unfold Parse
    rw [hext]
    exact buildCoverage_fail_fast pre p suf hpre hp

theorem parse_fail_fast_invalid_name_witness :
    findStringSubmatch "abc" = none ∧
    Parse (fun _ => Except.ok [wGoodProfile, wBadProfile]) "mode: set" =
      .error (.invalidCoverageData ("invalid coverage file name " ++ "abc")) :=
  ⟨parse_fail_fast_invalid_name.1 "abc" (by decide),
   parse_fail_fast_invalid_name.2 (fun _ => Except.ok [wGoodProfile, wBadProfile])
     "mode: set" [wGoodProfile] wBadProfile [] rfl (by decide) (by decide)⟩

/-- C8: with well-formed blocks (`numStatements ≥ 0`, `count ≥ 0`,
`endLine ≥ startLine`), every ratio in every bucket `GroupCoverage` returns
lies in `[0, 1]`, and the breakdown's four counts are non-negative with both
percentages in `[0, 1]`. -/
theorem aggregation_results_bounded (items : List Coverage)
    (groups : List ParseGroup)
    (h : ∀ cov ∈ items, ∀ b ∈ cov.Blocks,
      0 ≤ b.NumStmt ∧ 0 ≤ b.Count ∧ b.StartLine ≤ b.EndLine) :
    (∀ n bucket k r, alistFind (GroupCoverage items groups).1 n = some bucket →
      alistFind bucket k = some r → 0 ≤ r ∧ r ≤ 1) ∧
    (0 ≤ (GetTotalCoverageBreakdown items).1.TotalLines ∧
     0 ≤ (GetTotalCoverageBreakdown items).1.TotalCoveredLines ∧
     0 ≤ (GetTotalCoverageBreakdown items).1.TotalStatements ∧
     0 ≤ (GetTotalCoverageBreakdown items).1.TotalCoveredStatements ∧
     (0 ≤ (GetTotalCoverageBreakdown items).1.PercentByLines ∧
      (GetTotalCoverageBreakdown items).1.PercentByLines ≤ 1) ∧
     (0 ≤ (GetTotalCoverageBreakdown items).1.PercentByStatements ∧
      (GetTotalCoverageBreakdown items).1.PercentByStatements ≤ 1)) := by
  constructor
  · intro n bucket k r hfind hbval
    have hinv := foldGroups_inv items groups ⟨[], [], []⟩
      (fun cov hc b hb => (h cov hc b hb).1) initState_inv
    have hres : alistFind
        (groups.foldl (processGroup items) ⟨[], [], []⟩).result n =
        some bucket := hfind
    apply hinv.2.2.2 n k r
    rw [hres, Option.getD_some]
    exact hbval
  · have ht := specTotals_nonneg_le items h
    have hL := guarded_ratio_unit (specTotalCoveredLines items)
      (specTotalLines items) ht.1.1 ht.1.2
    have hS := guarded_ratio_unit (specTotalCoveredStatements items)
      (specTotalStatements items) ht.2.1 ht.2.2
    simp only [getTotalCoverageBreakdown_eq]
    exact ⟨le_trans ht.1.1 ht.1.2, ht.1.1, le_trans ht.2.1 ht.2.2, ht.2.1,
      hL, hS⟩

theorem aggregation_results_bounded_witness :
    (∀ n bucket k r,
      alistFind (GroupCoverage [wCovA, wCovZ] [wGroupAll]).1 n = some bucket →
      alistFind bucket k = some r → 0 ≤ r ∧ r ≤ 1) ∧
    (0 ≤ (GetTotalCoverageBreakdown [wCovA, wCovZ]).1.TotalLines ∧
     0 ≤ (GetTotalCoverageBreakdown [wCovA, wCovZ]).1.TotalCoveredLines ∧
     0 ≤ (GetTotalCoverageBreakdown [wCovA, wCovZ]).1.TotalStatements ∧
     0 ≤ (GetTotalCoverageBreakdown [wCovA, wCovZ]).1.TotalCoveredStatements ∧
     (0 ≤ (GetTotalCoverageBreakdown [wCovA, wCovZ]).1.PercentByLines ∧
      (GetTotalCoverageBreakdown [wCovA, wCovZ]).1.PercentByLines ≤ 1) ∧
     (0 ≤ (GetTotalCoverageBreakdown [wCovA, wCovZ]).1.PercentByStatements ∧
      (GetTotalCoverageBreakdown [wCovA, wCovZ]).1.PercentByStatements ≤ 1)) :=
  aggregation_results_bounded [wCovA, wCovZ] [wGroupAll] (by decide)

/-- C3 counterexample: `"a/b//c"` has four slash-separated segments (at
least two `/`), extraction succeeds with an empty `repo`, but the claimed
round-trip formula (which drops the repo segment when `repo` is empty)
rebuilds `"a/b/c"`, not the original identifier. -/
theorem parseLineRegex_roundtrip_cex :
    2 ≤ countSlash "a/b//c" ∧
    findStringSubmatch "a/b//c" = some ("a", "b", "", "c") ∧
    ("a" ++ "/" ++ "b" ++ "/" ++ "c" : String) ≠ "a/b//c" := by
  decide

/-- C3 amended: for every identifier with at least two `/`, extraction
succeeds; with exactly two `/` (three segments) `repo` is empty and `path`
absorbs the rest; and the parts round-trip through
`host + "/" + owner + "/" + (repo + "/" if repo non-empty) + path`
provided the extracted `repo` is non-empty or the identifier has exactly
two `/` (an identifier of four or more segments with an *empty* third
segment matches with `repo = ""` and the formula drops one `/`). -/
theorem parseLineRegex_roundtrip (s : String) (h : 2 ≤ countSlash s) :
    ∃ host owner repo path,
      findStringSubmatch s = some (host, owner, repo, path) ∧
      (countSlash s = 2 → repo = "") ∧
      ((repo ≠ "" ∨ countSlash s = 2) →
        host ++ "/" ++ owner ++ "/" ++
          (if repo = "" then "" else repo ++ "/") ++ path = s) := by
  obtain ⟨cs⟩ := s
  have hdata : (String.mk cs).data = cs := rfl
  simp only [countSlash, hdata] at h ⊢
  have h1 : '/' ∈ cs := List.count_pos_iff.mp (by omega)
  obtain ⟨p1, hsf1⟩ :=
    Option.isSome_iff_exists.mp (splitFirst_isSome_of_slash cs h1)
  obtain ⟨h0, r1⟩ := p1
  have hc1 := splitFirst_count cs h0 r1 hsf1
  have h2 : '/' ∈ r1 := List.count_pos_iff.mp (by omega)
  obtain ⟨p2, hsf2⟩ :=
    Option.isSome_iff_exists.mp (splitFirst_isSome_of_slash r1 h2)
  obtain ⟨ow, r2⟩ := p2
  have hc2 := splitFirst_count r1 ow r2 hsf2
  have hd1 := splitFirst_decomp cs h0 r1 hsf1
  have hd2 := splitFirst_decomp r1 ow r2 hsf2
  cases hsf3 : splitFirst r2 with
  | none =>
    refine ⟨⟨h0⟩, ⟨ow⟩, ⟨[]⟩, ⟨r2⟩, ?_, fun _ => rfl, fun _ => ?_⟩
    · simp only [findStringSubmatch, extractParts, hdata, hsf1, hsf2, hsf3]
      rfl
    · rw [if_pos (rfl : (⟨[]⟩ : String) = "")]
      have hlist : ((((h0 ++ ['/']) ++ ow) ++ ['/']) ++ ([] : List Char))
          ++ r2 = cs := by
        rw [hd1.1, hd2.1]
        simp
      exact congrArg String.mk hlist
  | some p3 =>
    obtain ⟨rp, r3⟩ := p3
    have hc3 := splitFirst_count r2 rp r3 hsf3
    have hd3 := splitFirst_decomp r2 rp r3 hsf3
    refine ⟨⟨h0⟩, ⟨ow⟩, ⟨rp⟩, ⟨r3⟩, ?_, ?_, ?_⟩
    · simp only [findStringSubmatch, extractParts, hdata, hsf1, hsf2, hsf3]
      rfl
    · intro h2s
      exfalso
      omega
    · rintro (hrp | h2s)
      · rw [if_neg hrp]
        have hlist : ((((h0 ++ ['/']) ++ ow) ++ ['/']) ++ (rp ++ ['/']))
            ++ r3 = cs := by
          rw [hd1.1, hd2.1, hd3.1]
          simp
        exact congrArg String.mk hlist
      · exfalso
        omega

theorem parseLineRegex_roundtrip_witness :
    2 ≤ countSlash "github.com/org/repo/pkg/file.go" ∧
    (∃ host owner repo path,
      findStringSubmatch "github.com/org/repo/pkg/file.go" =
        some (host, owner, repo, path) ∧
      (countSlash "github.com/org/repo/pkg/file.go" = 2 → repo = "") ∧
      ((repo ≠ "" ∨ countSlash "github.com/org/repo/pkg/file.go" = 2) →
        host ++ "/" ++ owner ++ "/" ++
          (if repo = "" then "" else repo ++ "/") ++ path =
          "github.com/org/repo/pkg/file.go")) :=
  ⟨by decide,
   parseLineRegex_roundtrip "github.com/org/repo/pkg/file.go" (by decide)⟩

end GoCov

